import Mathlib

/-!
# Verification of the `selector` generator multiplexer

Shallow embedding of `src/selector.py` (Python 2): a round-robin multiplexer
over lazy sources ("generators"), with per-value `stop` / `pause` predicates,
and a label-tracking subclass.

Modelling conventions:
* A generator object is a pair `(id, vals)` where `id : Nat` stands for the
  object's identity (two distinct Python objects always get distinct ids) and
  `vals` is the list of values the generator has yet to produce.
* `itertools.cycle(self.gens)` is modelled as a snapshot of the gens' ids
  (`cyc`) plus a position counter `pos`; `next(started)` returns
  `cyc[pos % len cyc]` and increments `pos`.  This is exact because inside
  `start()` the gens list is only mutated together with a rebuild of the cycle.
* Python 2 semantics: a `StopIteration` escaping the body of a generator
  function terminates the generator normally.  In particular
  `next(cycle([]))` raised inside `remove_gen`/`start` ends the produced
  sequence (`StepRes.done`), and `start()` on an empty source set yields the
  empty sequence.
* Predicates may raise; this is modelled with `Except ε Bool`
  (`Except.error e` = the predicate raised `e`; the error propagates
  unchanged, `StepRes.err e _`).
-/

/-- First value list associated to generator-id `i` (lookup by identity in a
list of generator objects). -/
def findVals {α : Type} : List (Nat × List α) → Nat → Option (List α)
  | [], _ => none
  | g :: gs, i => if g.1 = i then some g.2 else findVals gs i

/-- Replace the value list of the generator with id `i` (the generator object
advanced by one `next` call; first occurrence, ids are unique in practice). -/
def updVals {α : Type} : List (Nat × List α) → Nat → List α → List (Nat × List α)
  | [], _, _ => []
  | g :: gs, i, vs => if g.1 = i then (i, vs) :: gs else g :: updVals gs i vs

/-- Python `list.remove(gen)` on the gens list: drop the first entry with id `i`. -/
def eraseG {α : Type} : List (Nat × List α) → Nat → List (Nat × List α)
  | [], _ => []
  | g :: gs, i => if g.1 = i then gs else g :: eraseG gs i

/-- Python `list.remove(label)` on the labels list: drop the first occurrence of a
label equal to `a` (Python removes by equality, not by position). -/
def eraseL : List Nat → Nat → List Nat
  | [], _ => []
  | x :: xs, a => if x = a then xs else x :: eraseL xs a

/-- Remove the first pair whose key is `k` from an association list. -/
def erasePair : List (Nat × Nat) → Nat → List (Nat × Nat)
  | [], _ => []
  | p :: ps, k => if p.1 = k then ps else p :: erasePair ps k

/-- Lookup in a Python `dict(zip(keys, values))`: when a key occurs several
times the *last* pair wins, hence the recursion prefers the tail. -/
def dLookup : List (Nat × Nat) → Nat → Option Nat
  | [], _ => none
  | p :: ps, k =>
    match dLookup ps k with
    | some v => some v
    | none => if p.1 = k then some p.2 else none

/-- The in-progress state of `Selector.start`: the gens list, the snapshot of
ids held by the `itertools.cycle` object (`started`), the cycle's position,
and the id of the current generator (`self.curr`). -/
structure SelSt (α : Type) where
  gens : List (Nat × List α)
  cyc : List Nat
  pos : Nat
  curr : Nat
  deriving Repr, DecidableEq

/-- Result of one iteration of the `while True` loop in `Selector.start`. -/
inductive StepRes (α ε : Type) where
  /-- The gens list became empty: `next(cycle([]))` raised `StopIteration`,
  ending the produced sequence (Python 2 generator semantics). -/
  | done : StepRes α ε
  /-- Case where `self.curr` is not a member of the gens list.  Unreachable from
  `start()`: `curr` always refers to a member while iterating. -/
  | stuck : StepRes α ε
  /-- Emission `yield res`: a value is emitted, the current generator is kept. -/
  | emit : α → SelSt α → StepRes α ε
  /-- Removal: `remove_gen` ran (exhaustion if `trig = none`, `stop_condition` on the
  triggering value if `trig = some v`) and the set is still non-empty. -/
  | cut : Option α → SelSt α → StepRes α ε
  /-- Pause: `pause_gen` ran on value `v`: cursor advanced, nothing emitted. -/
  | rot : α → SelSt α → StepRes α ε
  /-- A predicate raised `e`; the error propagates unchanged to the caller
  and aborts the in-progress pull. -/
  | err : ε → SelSt α → StepRes α ε
  deriving Repr, DecidableEq

/-- A pure predicate (the ordinary case: `stop_condition` / `pause_condition`
never raise). -/
def liftP {α ε : Type} (f : α → Bool) : α → Except ε Bool :=
  fun v => Except.ok (f v)

/-- Model of `next(self.started)` for a non-exhausted cycle: the element of the
snapshot at `pos % length` (out-of-range default is never consulted: the
cycle snapshot is non-empty whenever `pause_gen` runs). -/
def cycNext {α : Type} (s : SelSt α) : Nat :=
  s.cyc.getD (s.pos % s.cyc.length) 0

/-- Model of `Selector.remove_gen(self.curr)`: remove the current generator from
`self.gens`, rebuild `self.started = cycle(self.gens)` and set
`self.curr = next(self.started)`.  When the list becomes empty that `next`
raises `StopIteration`, which terminates `start` (`.done`). -/
def removeGen {α ε : Type} (trig : Option α) (s : SelSt α) : StepRes α ε :=
  match eraseG s.gens s.curr with
  | [] => .done
  | g :: gs => .cut trig ⟨g :: gs, (g :: gs).map Prod.fst, 1, g.1⟩

/-- One iteration of the `while True` loop of `Selector.start`:
pull `res = next(self.curr)` (advancing the generator object), then test
`stop_condition`, then `pause_condition`, else yield. -/
def step {α ε : Type} (stopC pauseC : α → Except ε Bool) (s : SelSt α) :
    StepRes α ε :=
  match findVals s.gens s.curr with
  | none => .stuck
  | some [] => removeGen none s
  | some (v :: rest) =>
    let s1 : SelSt α := { s with gens := updVals s.gens s.curr rest }
    match stopC v with
    | .error e => .err e s1
    | .ok true => removeGen (some v) s1
    | .ok false =>
      match pauseC v with
      | .error e => .err e s1
      | .ok true => .rot v { s1 with curr := cycNext s1, pos := s1.pos + 1 }
      | .ok false => .emit v s1

/-- Observable scheduling events of one run of `start`. -/
inductive Ev (α : Type) where
  /-- a value was yielded to the consumer -/
  | out : α → Ev α
  /-- a pause: triggering value, `curr` before, `curr` after, number of gens -/
  | rot : α → Nat → Nat → Nat → Ev α
  /-- a removal: triggering value (`none` = exhaustion), removed id,
  remaining ids, new current id -/
  | cut : Option α → Nat → List Nat → Nat → Ev α
  deriving Repr, DecidableEq

/-- Drive the loop of `start` for at most `fuel` iterations with pure
predicates, recording the event trace; `none` means the fuel ran out (or the
unreachable `stuck` case).  Termination returns the trace together with the
final gens list (which is empty: the sequence only ends when the last
generator has been removed). -/
def runAll {α : Type} (stopC pauseC : α → Bool) :
    Nat → SelSt α → Option (List (Ev α) × List (Nat × List α))
  | 0, _ => none
  | fuel + 1, s =>
    match step (liftP (ε := Unit) stopC) (liftP pauseC) s with
    | .done => some ([], [])
    | .stuck => none
    | .err _ _ => none
    | .emit v s1 =>
      (runAll stopC pauseC fuel s1).map (fun p => (Ev.out v :: p.1, p.2))
    | .cut trig s1 =>
      (runAll stopC pauseC fuel s1).map
        (fun p => (Ev.cut trig s.curr s1.cyc s1.curr :: p.1, p.2))
    | .rot v s1 =>
      (runAll stopC pauseC fuel s1).map
        (fun p => (Ev.rot v s.curr s1.curr s.gens.length :: p.1, p.2))

/-- The values actually yielded, extracted from an event trace. -/
def outsOf {α : Type} (evs : List (Ev α)) : List α :=
  evs.filterMap (fun e => match e with | .out v => some v | _ => none)

/-- The observable fields of a `Selector` object between pulls: `self.gens`,
`self.started` (cycle snapshot and position, `none` before `start`),
`self.curr`. -/
structure SelObj (α : Type) where
  gens : List (Nat × List α)
  started : Option (List Nat × Nat)
  curr : Option Nat
  deriving Repr, DecidableEq

/-- Model of `Selector.__init__` with an initial gens list (predicates are stored but
never mutated, so they are passed separately to the run functions). -/
def mkSelector {α : Type} (gens : List (Nat × List α)) : SelObj α :=
  ⟨gens, none, none⟩

/-- Model of `Selector.add_gen`: unconditionally append the generator to `self.gens`
(the source contains no duplicate check). -/
def addGen {α : Type} (o : SelObj α) (g : Nat × List α) : SelObj α :=
  { o with gens := o.gens ++ [g] }

/-- Model of `Selector.stop`: reset to the original state. -/
def selStop {α : Type} (_o : SelObj α) : SelObj α :=
  ⟨[], none, none⟩

/-- Model of `Selector.start` consumed to exhaustion (with fuel): `started =
cycle(self.gens)`, `curr = next(started)` — on an empty gens list that first
`next` raises `StopIteration` and the sequence is empty. -/
def startSel {α : Type} (stopC pauseC : α → Bool) (o : SelObj α) (fuel : Nat) :
    Option (List (Ev α) × List (Nat × List α)) :=
  match o.gens with
  | [] => some ([], [])
  | g :: _ => runAll stopC pauseC fuel ⟨o.gens, o.gens.map Prod.fst, 1, g.1⟩

/-- The list of values produced by fully consuming `start`. -/
def selOut {α : Type} (stopC pauseC : α → Bool) (o : SelObj α) (fuel : Nat) :
    Option (List α) :=
  (startSel stopC pauseC o fuel).map (fun p => outsOf p.1)

/-- Model of `Selector.false`, the default pause predicate: `False` on every input. -/
def falseCond {α : Type} (_ : α) : Bool := false

/-- The test-suite predicate `gt10`. -/
def gt10 (v : Nat) : Bool := decide (v > 10)

/-- The test-suite predicate `is_even`. -/
def isEven (v : Nat) : Bool := decide (v % 2 = 0)

/-- The test-suite generator `gen1`: values `0..99`. -/
def gen1Vals : List Nat := List.range 100

/-- The test-suite generator `gen2`: values `5..19`. -/
def gen2Vals : List Nat := List.range' 5 15

/-- The observable fields of a `LabeledSelector` object: the inherited
`Selector` fields plus the positionally aligned `self.labels` list.
Labels are modelled as `Nat`. -/
structure LSelObj (α : Type) where
  gens : List (Nat × List α)
  labels : List Nat
  started : Option (List Nat × Nat)
  curr : Option Nat
  deriving Repr, DecidableEq

/-- Model of `LabeledSelector.__init__` without a `gen_dict`. -/
def mkLSel {α : Type} : LSelObj α :=
  ⟨[], [], none, none⟩

/-- Model of `LabeledSelector.add_gen(gen, label)`: append the label, then append the
generator via the superclass. -/
def lAddGen {α : Type} (s : LSelObj α) (g : Nat × List α) (lab : Nat) :
    LSelObj α :=
  { s with gens := s.gens ++ [g], labels := s.labels ++ [lab] }

/-- Model of `self.gens_dict`, i.e. `dict(zip(self.gens, self.labels))`, as an
association list from generator ids to labels (looked up with `dLookup`,
which gives the later pair priority, as a Python dict does). -/
def gensDict {α : Type} (s : LSelObj α) : List (Nat × Nat) :=
  (s.gens.map Prod.fst).zip s.labels

/-- Model of `LabeledSelector.remove_gen(gen)`:
`self.labels.remove(self.gens_dict[gen])`, then the superclass
`remove_gen` (erase the generator, rebuild `started = cycle(self.gens)`,
`curr = next(started)` — on an emptied list that `next` raises after the
mutations, leaving `curr` unassigned).  `none` = `KeyError`
(generator not present); the state is then unchanged. -/
def lRemoveGen {α : Type} (s : LSelObj α) (i : Nat) : Option (LSelObj α) :=
  match dLookup (gensDict s) i with
  | none => none
  | some lab =>
    let gens' := eraseG s.gens i
    some { gens := gens'
           labels := eraseL s.labels lab
           started := some (gens'.map Prod.fst, if gens'.isEmpty then 0 else 1)
           curr := match gens' with
                   | [] => s.curr
                   | g :: _ => some g.1 }

/-- An add or remove operation on a `LabeledSelector`. -/
inductive LOp (α : Type) where
  | addL : Nat → List α → Nat → LOp α
  | rmL : Nat → LOp α
  deriving Repr, DecidableEq

/-- Apply one operation; a failed remove (`KeyError`) leaves the state
unchanged. -/
def lApply {α : Type} (s : LSelObj α) : LOp α → LSelObj α
  | .addL i vs lab => lAddGen s (i, vs) lab
  | .rmL i => (lRemoveGen s i).getD s

/-- Run a sequence of add/remove operations from a freshly constructed
`LabeledSelector`. -/
def lFold {α : Type} (ops : List (LOp α)) : LSelObj α :=
  ops.foldl lApply mkLSel

/-- The generator ids supplied by the add operations of a sequence. -/
def addIds {α : Type} (ops : List (LOp α)) : List Nat :=
  ops.filterMap (fun op => match op with | .addL i _ _ => some i | _ => none)

/-- The labels supplied by the add operations of a sequence. -/
def addLabs {α : Type} (ops : List (LOp α)) : List Nat :=
  ops.filterMap (fun op => match op with | .addL _ _ lab => some lab | _ => none)

/-- Well-formed operation sequences: all added generators are distinct
objects and all supplied labels are pairwise distinct. -/
def OkOps {α : Type} (ops : List (LOp α)) : Prop :=
  (addIds ops).Nodup ∧ (addLabs ops).Nodup

instance {α : Type} (ops : List (LOp α)) : Decidable (OkOps ops) := by
  unfold OkOps; infer_instance

/-- Modelled from the spec: the intended effect of one operation on the
aligned (source id, label) pairs — add appends the pair, remove erases
exactly the removed source's pair.  Used to compare the implementation's
`gensDict` against the specified behaviour. -/
def specPairsStep {α : Type} (q : List (Nat × Nat)) : LOp α → List (Nat × Nat)
  | .addL i _ lab => q ++ [(i, lab)]
  | .rmL i => erasePair q i

/-- Modelled from the spec: the aligned pairs after a whole operation
sequence. -/
def specPairsFold {α : Type} (ops : List (LOp α)) : List (Nat × Nat) :=
  ops.foldl specPairsStep []

/-- The comparison order Python 2 uses on `(label, gen)` items sorted with
`key=itemgetter(1)`: generator objects of the same type compare by memory
address, modelled by the generator id. -/
def genLe {α : Type} (p q : Nat × (Nat × List α)) : Prop :=
  p.2.1 ≤ q.2.1

instance {α : Type} : DecidableRel (genLe (α := α)) :=
  fun p q => inferInstanceAs (Decidable (p.2.1 ≤ q.2.1))

/-- Model of `LabeledSelector.add_gens(gen_dict)`: iterate
`sorted(gen_dict.iteritems(), key=itemgetter(1))` — the `(label, gen)` pairs
sorted by comparing the generator objects — and `add_gen` each pair.
`pairs` is the dict's item list. -/
def lAddGens {α : Type} (s : LSelObj α) (pairs : List (Nat × (Nat × List α))) :
    LSelObj α :=
  (List.insertionSort genLe pairs).foldl (fun st p => lAddGen st p.2 p.1) s

/-- Model of `LabeledSelector.stop`: superclass reset plus `self.labels = []`. -/
def lselStop {α : Type} (_s : LSelObj α) : LSelObj α :=
  ⟨[], [], none, none⟩

/-- The heap of generator objects ever created, keyed by identity:
used to model `select_on`, whose point is that the factory is invoked twice,
producing two distinct objects with separate iteration state. -/
def freshId {α : Type} (st : List (Nat × List α)) : Nat :=
  (st.map Prod.fst).foldr (fun a b => max a b) 0 + 1

/-- Pull `k` values from the generator object with id `i` (its own state
advances; nothing else in the heap is touched). -/
def advanceGen {α : Type} (st : List (Nat × List α)) (i k : Nat) :
    List (Nat × List α) :=
  match findVals st i with
  | none => st
  | some vs => updVals st i (vs.drop k)

/-- Model of `Selector.select_on(gen)`: call the factory once and register the fresh
instance with `add_gen`, call it a second time and return that separate
fresh instance to the caller.  `st` is the heap of existing generator
objects, `vals` the value sequence a fresh instance produces.  Returns the
extended heap, the updated selector, and the id of the caller's instance. -/
def selectOn {α : Type} (st : List (Nat × List α)) (o : SelObj α)
    (vals : List α) : List (Nat × List α) × SelObj α × Nat :=
  let a := freshId st
  let st1 := st ++ [(a, vals)]
  let b := freshId st1
  (st1 ++ [(b, vals)], addGen o (a, vals), b)

theorem outsOf_nil {α : Type} : outsOf ([] : List (Ev α)) = [] := rfl

theorem outsOf_cons_out {α : Type} (v : α) (evs : List (Ev α)) :
    outsOf (Ev.out v :: evs) = v :: outsOf evs := by
  simp [outsOf]

theorem outsOf_cons_rot {α : Type} (v : α) (b a n : Nat) (evs : List (Ev α)) :
    outsOf (Ev.rot v b a n :: evs) = outsOf evs := by
  simp [outsOf]

theorem outsOf_cons_cut {α : Type} (t : Option α) (r : Nat) (rem : List Nat)
    (c : Nat) (evs : List (Ev α)) :
    outsOf (Ev.cut t r rem c :: evs) = outsOf evs := by
  simp [outsOf]

theorem outsOf_append {α : Type} (a b : List (Ev α)) :
    outsOf (a ++ b) = outsOf a ++ outsOf b := by
  simp [outsOf, List.filterMap_append]

theorem outsOf_map_out {α : Type} (l : List α) : outsOf (l.map Ev.out) = l := by
  induction l with
  | nil => rfl
  | cons v t ih => rw [List.map_cons, outsOf_cons_out, ih]

theorem runAll_succ {α : Type} (sc pc : α → Bool) (f : Nat) (s : SelSt α) :
    runAll sc pc (f + 1) s =
      match step (liftP (ε := Unit) sc) (liftP pc) s with
      | .done => some ([], [])
      | .stuck => none
      | .err _ _ => none
      | .emit v s1 => (runAll sc pc f s1).map (fun p => (Ev.out v :: p.1, p.2))
      | .cut trig s1 =>
        (runAll sc pc f s1).map
          (fun p => (Ev.cut trig s.curr s1.cyc s1.curr :: p.1, p.2))
      | .rot v s1 =>
        (runAll sc pc f s1).map
          (fun p => (Ev.rot v s.curr s1.curr s.gens.length :: p.1, p.2)) :=
  rfl

theorem runAll_single {α : Type} (l : List α) (i : Nat) (cyc : List Nat)
    (pos : Nat) :
    runAll falseCond falseCond (l.length + 1) ⟨[(i, l)], cyc, pos, i⟩ =
      some (l.map Ev.out, []) := by
  induction l with
  | nil =>
    have hs : step (liftP (ε := Unit) falseCond) (liftP falseCond)
        ⟨[(i, ([] : List α))], cyc, pos, i⟩ = .done := by
      simp [step, findVals, removeGen, eraseG]
    rw [List.length_nil, Nat.zero_add, runAll_succ, hs]
    rfl
  | cons v t ih =>
    have hs : step (liftP (ε := Unit) falseCond) (liftP falseCond)
        ⟨[(i, v :: t)], cyc, pos, i⟩ = .emit v ⟨[(i, t)], cyc, pos, i⟩ := by
      simp [step, findVals, updVals, liftP, falseCond]
    rw [List.length_cons, runAll_succ, hs]
    dsimp only
    rw [ih]
    simp

theorem runAll_pair {α : Type} (l1 l2 : List α) (cyc : List Nat) (pos : Nat) :
    runAll falseCond falseCond (l1.length + l2.length + 2)
        ⟨[(1, l1), (2, l2)], cyc, pos, 1⟩ =
      some (l1.map Ev.out ++ Ev.cut none 1 [2] 2 :: l2.map Ev.out, []) := by
  induction l1 with
  | nil =>
    have hs : step (liftP (ε := Unit) falseCond) (liftP falseCond)
        ⟨[(1, ([] : List α)), (2, l2)], cyc, pos, 1⟩ =
        .cut none ⟨[(2, l2)], [2], 1, 2⟩ := by
      simp [step, findVals, removeGen, eraseG]
    have hf : ([] : List α).length + l2.length + 2 = (l2.length + 1) + 1 := by
      simp
    rw [hf, runAll_succ, hs]
    dsimp only
    rw [runAll_single]
    simp
  | cons v t ih =>
    have hs : step (liftP (ε := Unit) falseCond) (liftP falseCond)
        ⟨[(1, v :: t), (2, l2)], cyc, pos, 1⟩ =
        .emit v ⟨[(1, t), (2, l2)], cyc, pos, 1⟩ := by
      simp [step, findVals, updVals, liftP, falseCond]
    have hf : (v :: t).length + l2.length + 2 =
        (t.length + l2.length + 2) + 1 := by
      simp [List.length_cons]; omega
    rw [hf, runAll_succ, hs]
    dsimp only
    rw [ih]
    simp

/-- C1: with `stop` always false and `pause` defaulted (`Selector.false`),
consuming `begin()/start()` over two finite sources yields exactly the
concatenation of the first source's full output followed by the second's. -/
theorem selector_no_predicate_concat {α : Type} (l1 l2 : List α) :
    selOut falseCond falseCond (mkSelector [(1, l1), (2, l2)])
        (l1.length + l2.length + 2) = some (l1 ++ l2) := by
  simp only [selOut, startSel, mkSelector]
  rw [runAll_pair]
  simp [outsOf_append, outsOf_map_out, outsOf_cons_cut]

/-- C2: with sources `0..99` and `5..19` and `stop(v) = v > 10` (pause
defaulted), the full event trace is: emit `0..10`, then source 1 is removed
by the triggering value `11` (not emitted) and the cursor is rebuilt from the
head of the updated set making source 2 current, then emit `5..10`, then the
run terminates (source 2 removed at its own `11`, emptying the set). -/
theorem selector_stop_threshold :
    startSel gt10 falseCond (mkSelector [(1, gen1Vals), (2, gen2Vals)]) 200 =
      some ((List.range 11).map Ev.out ++
        Ev.cut (some 11) 1 [2] 2 :: (List.range' 5 6).map Ev.out, []) := by
  decide

/-- A pause event whose cursor advance landed on the very generator that was
current before it (no alternation). -/
def rotNoSwitch {α : Type} : Ev α → Bool
  | .rot _ b a _ => b == a
  | _ => false

/-- Every pause event is triggered by an even value, and alternates the
current source whenever both sources are still in the set. -/
def rotPauseOk : Ev Nat → Bool
  | .rot v b a n => (v % 2 == 0) && (n != 2 || b != a)
  | _ => true

/-- Every removal is triggered by an odd value (or plain exhaustion):
no even value ever removes a source. -/
def cutOddTrig : Ev Nat → Bool
  | .cut (some v) _ _ _ => v % 2 == 1
  | _ => true

/-- C5 counterexample: in the `stop(v) = v > 10`, `pause(v) = v even` run
over `0..99` and `5..19`, some pause event does *not* alternate the current
source (after source 2 is stopped at `11`, the even values `8` and `10` from
source 1 advance the cursor back to source 1 itself), refuting "the current
source alternates between the two sources each time an even value is
encountered". -/
theorem selector_pause_alternation_cex :
    (startSel gt10 isEven (mkSelector [(1, gen1Vals), (2, gen2Vals)]) 300).map
        (fun p => p.1.any rotNoSwitch) = some true := by
  decide

/-- C5 amended: in that run no even value is ever emitted (the produced
values are `5,1,7,3,9,5,7,9`, all odd), every pause event is triggered by an
even value, no removal is triggered by an even value, and the current source
alternates at an even value whenever both sources are still in the set. -/
theorem selector_pause_skip_amended :
    (startSel gt10 isEven (mkSelector [(1, gen1Vals), (2, gen2Vals)]) 300).map
        (fun p => ((outsOf p.1).all (fun v => v % 2 == 1),
          p.1.all rotPauseOk, p.1.all cutOddTrig, outsOf p.1)) =
      some (true, true, true, [5, 1, 7, 3, 9, 5, 7, 9]) := by
  decide

theorem runAll_final_empty {α : Type} (sc pc : α → Bool) :
    ∀ (fuel : Nat) (s : SelSt α) (evs : List (Ev α))
      (fin : List (Nat × List α)),
      runAll sc pc fuel s = some (evs, fin) → fin = [] := by
  intro fuel
  induction fuel with
  | zero => intro s evs fin h; simp [runAll] at h
  | succ f ih =>
    intro s evs fin h
    rw [runAll_succ] at h
    cases hs : step (liftP (ε := Unit) sc) (liftP pc) s <;> rw [hs] at h <;>
      simp only [] at h
    case done =>
      exact (congrArg Prod.snd (Option.some.inj h)).symm
    case stuck => exact absurd h (by simp)
    case err e s1 => exact absurd h (by simp)
    case emit v s1 =>
      obtain ⟨p, hp, hg⟩ := Option.map_eq_some'.mp h
      have h2 : p.2 = fin := congrArg Prod.snd hg
      exact h2 ▸ ih s1 p.1 p.2 (by rw [hp])
    case cut trig s1 =>
      obtain ⟨p, hp, hg⟩ := Option.map_eq_some'.mp h
      have h2 : p.2 = fin := congrArg Prod.snd hg
      exact h2 ▸ ih s1 p.1 p.2 (by rw [hp])
    case rot v s1 =>
      obtain ⟨p, hp, hg⟩ := Option.map_eq_some'.mp h
      have h2 : p.2 = fin := congrArg Prod.snd hg
      exact h2 ▸ ih s1 p.1 p.2 (by rw [hp])

/-- C10: consuming `begin()/start()` to natural termination is destructive:
the final gens list is empty (every source was removed), positional
introspection (`__getitem__`) finds nothing, and a second `start()` on the
same instance yields the empty sequence immediately, no `reset()` needed. -/
theorem start_consumed_destructive {α : Type} (sc pc : α → Bool) (fuel : Nat)
    (o : SelObj α) (evs : List (Ev α)) (fin : List (Nat × List α))
    (h : startSel sc pc o fuel = some (evs, fin)) :
    fin = [] ∧ (∀ i, fin.get? i = none) ∧
      (∀ st cu f2, startSel sc pc ⟨fin, st, cu⟩ f2 = some ([], [])) := by
  have hfin : fin = [] := by
    unfold startSel at h
    cases hg : o.gens with
    | nil =>
      rw [hg] at h
      simp at h
      exact h.2
    | cons g gs =>
      rw [hg] at h
      exact runAll_final_empty sc pc fuel _ evs fin h
  subst hfin
  exact ⟨rfl, fun i => rfl, fun st cu f2 => rfl⟩

theorem start_consumed_destructive_witness :
    startSel falseCond falseCond (mkSelector [(1, [42])]) 10 =
        some ([Ev.out 42], []) ∧
      (([] : List (Nat × List Nat)) = [] ∧
        (∀ i, ([] : List (Nat × List Nat)).get? i = none) ∧
        (∀ st cu f2,
          startSel falseCond falseCond (⟨[], st, cu⟩ : SelObj Nat) f2 =
            some ([], []))) :=
  ⟨by decide,
    start_consumed_destructive falseCond falseCond 10
      (mkSelector [(1, [42])]) [Ev.out 42] [] (by decide)⟩

theorem updVals_map_fst {α : Type} (gs : List (Nat × List α)) (i : Nat)
    (vs : List α) : (updVals gs i vs).map Prod.fst = gs.map Prod.fst := by
  induction gs with
  | nil => rfl
  | cons g t ih =>
    by_cases h : g.1 = i
    · simp [updVals, h]
    · simp [updVals, h, ih]

/-- C7: if evaluating `stop_condition` or `pause_condition` raises, the
error propagates unchanged (`StepRes.err e _`) aborting the pull, and the
engine's own state — source set membership, cursor (`started` snapshot and
position) and current source — is exactly as before the failing pull: no
removal, no cursor advance, no emission. -/
theorem predicate_error_preserves_state {α ε : Type}
    (stopC pauseC : α → Except ε Bool) (s s1 : SelSt α) (e : ε)
    (h : step stopC pauseC s = .err e s1) :
    s1.gens.map Prod.fst = s.gens.map Prod.fst ∧ s1.cyc = s.cyc ∧
      s1.pos = s.pos ∧ s1.curr = s.curr := by
  unfold step at h
  cases hf : findVals s.gens s.curr <;> rw [hf] at h
  case none => simp at h
  case some vs =>
    cases vs with
    | nil =>
      unfold removeGen at h
      cases he : eraseG s.gens s.curr <;> rw [he] at h <;> simp at h
    | cons v rest =>
      simp only [] at h
      cases hst : stopC v <;> rw [hst] at h
      case error e1 =>
        rw [StepRes.err.injEq] at h
        rw [← h.2]
        exact ⟨updVals_map_fst s.gens s.curr rest, rfl, rfl, rfl⟩
      case ok b =>
        cases b
        case true =>
          unfold removeGen at h
          cases he : eraseG (updVals s.gens s.curr rest) s.curr <;>
            rw [he] at h <;> simp at h
        case false =>
          simp only [] at h
          cases hpa : pauseC v <;> rw [hpa] at h
          case error e1 =>
            rw [StepRes.err.injEq] at h
            rw [← h.2]
            exact ⟨updVals_map_fst s.gens s.curr rest, rfl, rfl, rfl⟩
          case ok b2 => cases b2 <;> simp at h

/-- A stop predicate that raises (models a failing user predicate). -/
def raisingStop (_v : Nat) : Except Nat Bool := Except.error 7

/-- A pause predicate that never raises. -/
def okPause (_v : Nat) : Except Nat Bool := Except.ok false

theorem predicate_error_preserves_state_witness :
    step raisingStop okPause (⟨[(1, [4, 9])], [1], 1, 1⟩ : SelSt Nat) =
        .err 7 ⟨[(1, [9])], [1], 1, 1⟩ ∧
      ((⟨[(1, [9])], [1], 1, 1⟩ : SelSt Nat).gens.map Prod.fst =
          (⟨[(1, [4, 9])], [1], 1, 1⟩ : SelSt Nat).gens.map Prod.fst ∧
        (⟨[(1, [9])], [1], 1, 1⟩ : SelSt Nat).cyc =
          (⟨[(1, [4, 9])], [1], 1, 1⟩ : SelSt Nat).cyc ∧
        (⟨[(1, [9])], [1], 1, 1⟩ : SelSt Nat).pos =
          (⟨[(1, [4, 9])], [1], 1, 1⟩ : SelSt Nat).pos ∧
        (⟨[(1, [9])], [1], 1, 1⟩ : SelSt Nat).curr =
          (⟨[(1, [4, 9])], [1], 1, 1⟩ : SelSt Nat).curr) :=
  ⟨by decide,
    predicate_error_preserves_state raisingStop okPause _ _ 7 (by decide)⟩

/-- C3 counterexample: `add_gen` has no duplicate check — adding a source
already present by identity (id `1`) appends a second entry aliasing the
same sequence; no `DuplicateSourceError` exists anywhere in the code. -/
theorem add_gen_duplicate_cex :
    (addGen (mkSelector [(1, [5])]) ((1, [5]) : Nat × List Nat)).gens =
      [(1, [5]), (1, [5])] := rfl

/-- C3 amended: calling `add_gen` with a source already present by identity
does not fail; it unconditionally appends a second entry aliasing the same
underlying sequence. -/
theorem add_gen_duplicate_appends {α : Type} (o : SelObj α)
    (g : Nat × List α) (_h : g ∈ o.gens) :
    (addGen o g).gens = o.gens ++ [g] := rfl

theorem add_gen_duplicate_appends_witness :
    ((1, [5]) : Nat × List Nat) ∈ (mkSelector [(1, [5])] : SelObj Nat).gens ∧
      (addGen (mkSelector [(1, [5])]) ((1, [5]) : Nat × List Nat)).gens =
        (mkSelector [(1, [5])] : SelObj Nat).gens ++ [(1, [5])] :=
  ⟨by decide, add_gen_duplicate_appends (mkSelector [(1, [5])]) (1, [5])
    (by decide)⟩

/-- C8: `stop()`/`reset()` in any state yields an instance observably
identical to a freshly constructed one with no sources — empty gens (and,
for the labeled layer, empty labels), `started = None` (unstarted),
`curr = None` — and is idempotent. -/
theorem stop_resets_to_fresh {α : Type} (s : SelObj α) (t : LSelObj α) :
    selStop s = mkSelector [] ∧ selStop (selStop s) = selStop s ∧
      lselStop t = mkLSel ∧ lselStop (lselStop t) = lselStop t :=
  ⟨rfl, rfl, rfl, rfl⟩

theorem mem_le_foldr_max (l : List Nat) (x : Nat) (h : x ∈ l) :
    x ≤ l.foldr (fun a b => max a b) 0 := by
  induction l with
  | nil => cases h
  | cons y t ih =>
    cases h with
    | head => exact Nat.le_max_left _ _
    | tail _ ht => exact Nat.le_trans (ih ht) (Nat.le_max_right _ _)

theorem freshId_not_mem {α : Type} (st : List (Nat × List α)) :
    freshId st ∉ st.map Prod.fst := by
  intro hmem
  have h := mem_le_foldr_max (st.map Prod.fst) (freshId st) hmem
  simp only [freshId] at h
  omega

theorem findVals_append_right {α : Type} (st l : List (Nat × List α))
    (i : Nat) (h : i ∉ st.map Prod.fst) :
    findVals (st ++ l) i = findVals l i := by
  induction st with
  | nil => rfl
  | cons g t ih =>
    have hne : g.1 ≠ i := by
      intro he
      exact h (by simp [he])
    simp only [List.cons_append, findVals, if_neg hne]
    exact ih (fun hm => h (by simp [hm]))

theorem findVals_updVals_ne {α : Type} (st : List (Nat × List α))
    (i j : Nat) (vs : List α) (hij : i ≠ j) :
    findVals (updVals st j vs) i = findVals st i := by
  induction st with
  | nil => rfl
  | cons g t ih =>
    by_cases hj : g.1 = j
    · subst hj
      have hne : ¬(g.1 = i) := fun h => hij h.symm
      simp [updVals, findVals, hne]
    · by_cases hi : g.1 = i
      · simp [updVals, if_neg hj, findVals, if_pos hi]
      · simp [updVals, if_neg hj, findVals, if_neg hi, ih]

theorem advanceGen_lookup_ne {α : Type} (st : List (Nat × List α))
    (i j k : Nat) (hij : i ≠ j) :
    findVals (advanceGen st j k) i = findVals st i := by
  unfold advanceGen
  cases findVals st j with
  | none => rfl
  | some vs => exact findVals_updVals_ne st i j (vs.drop k) hij

/-- C9: `select_on(gen)` invokes the factory twice: it registers one fresh
instance (identity `freshId st`) into the engine with `add_gen` and returns
a *separate* fresh instance to the caller.  The two are distinct objects;
both produce the factory's value sequence, and pulling any number of values
from either one leaves the other's remaining values unchanged. -/
theorem select_on_decoupled {α : Type} (st : List (Nat × List α))
    (o : SelObj α) (vals : List α) (k : Nat) :
    (selectOn st o vals).2.1.gens = o.gens ++ [(freshId st, vals)] ∧
      (selectOn st o vals).2.2 ≠ freshId st ∧
      findVals (selectOn st o vals).1 (freshId st) = some vals ∧
      findVals (selectOn st o vals).1 (selectOn st o vals).2.2 = some vals ∧
      findVals (advanceGen (selectOn st o vals).1 (selectOn st o vals).2.2 k)
          (freshId st) = some vals ∧
      findVals (advanceGen (selectOn st o vals).1 (freshId st) k)
          (selectOn st o vals).2.2 = some vals := by
  have ha : freshId st ∉ st.map Prod.fst := freshId_not_mem st
  have hb : freshId (st ++ [(freshId st, vals)]) ∉
      (st ++ [(freshId st, vals)]).map Prod.fst :=
    freshId_not_mem (st ++ [(freshId st, vals)])
  have hamem : freshId st ∈ (st ++ [(freshId st, vals)]).map Prod.fst := by
    simp
  have hba : freshId (st ++ [(freshId st, vals)]) ≠ freshId st := by
    intro he
    exact hb (by rw [he]; exact hamem)
  have hbst : freshId (st ++ [(freshId st, vals)]) ∉ st.map Prod.fst := by
    intro hm
    exact hb (by simp [hm])
  have hassoc : st ++ [(freshId st, vals)] ++
      [(freshId (st ++ [(freshId st, vals)]), vals)] =
      st ++ ((freshId st, vals) ::
        [(freshId (st ++ [(freshId st, vals)]), vals)]) := by
    simp
  have hlka : findVals (st ++ [(freshId st, vals)] ++
      [(freshId (st ++ [(freshId st, vals)]), vals)]) (freshId st) =
      some vals := by
    rw [hassoc, findVals_append_right st _ _ ha]
    simp [findVals]
  have hlkb : findVals (st ++ [(freshId st, vals)] ++
      [(freshId (st ++ [(freshId st, vals)]), vals)])
      (freshId (st ++ [(freshId st, vals)])) = some vals := by
    rw [hassoc, findVals_append_right st _ _ hbst]
    simp [findVals, if_neg (Ne.symm hba)]
  refine ⟨rfl, hba, hlka, hlkb, ?_, ?_⟩
  · show findVals (advanceGen (st ++ [(freshId st, vals)] ++
        [(freshId (st ++ [(freshId st, vals)]), vals)])
        (freshId (st ++ [(freshId st, vals)])) k) (freshId st) = some vals
    rw [advanceGen_lookup_ne _ _ _ _ (Ne.symm hba)]
    exact hlka
  · show findVals (advanceGen (st ++ [(freshId st, vals)] ++
        [(freshId (st ++ [(freshId st, vals)]), vals)])
        (freshId st) k) (freshId (st ++ [(freshId st, vals)])) = some vals
    rw [advanceGen_lookup_ne _ _ _ _ hba]
    exact hlkb

/-- C6 counterexample: `add_gens` inserts in the order given by sorting the
`(label, gen)` items by the generator objects' comparison order, not in the
caller-visible order.  Two calls with the same labels in the same caller
order but different generator identities insert in different orders: the
insertion order depends on the incidental ordering of the source objects. -/
theorem add_gens_order_cex :
    (lAddGens (mkLSel : LSelObj Nat) [(10, (2, [])), (20, (1, []))]).labels =
        [20, 10] ∧
      (lAddGens (mkLSel : LSelObj Nat) [(10, (1, [])), (20, (2, []))]).labels =
        [10, 20] := by
  decide

instance {α : Type} : IsTotal (Nat × (Nat × List α)) genLe :=
  ⟨fun a b => Nat.le_total a.2.1 b.2.1⟩

instance {α : Type} : IsTrans (Nat × (Nat × List α)) genLe :=
  ⟨fun _ _ _ hab hbc => Nat.le_trans hab hbc⟩

theorem addGenFold_spec {α : Type} :
    ∀ (ps : List (Nat × (Nat × List α))) (s : LSelObj α),
      (ps.foldl (fun st p => lAddGen st p.2 p.1) s).labels =
          s.labels ++ ps.map Prod.fst ∧
        (ps.foldl (fun st p => lAddGen st p.2 p.1) s).gens =
          s.gens ++ ps.map Prod.snd := by
  intro ps
  induction ps with
  | nil => intro s; simp
  | cons p t ih =>
    intro s
    obtain ⟨h1, h2⟩ := ih (lAddGen s p.2 p.1)
    constructor
    · rw [List.foldl_cons, h1]; simp [lAddGen]
    · rw [List.foldl_cons, h2]; simp [lAddGen]

/-- C6 amended: a bulk `add_gens(gen_dict)` call inserts the `(label, gen)`
pairs in ascending order of the generator objects' comparison key (their
identity/address in Python 2), i.e. the items sorted by `genLe` — a
deterministic order, but one governed by the incidental ordering of the
source objects rather than by the caller. -/
theorem add_gens_sorted_by_source {α : Type} (s : LSelObj α)
    (pairs : List (Nat × (Nat × List α))) :
    (lAddGens s pairs).labels =
        s.labels ++ (List.insertionSort genLe pairs).map Prod.fst ∧
      (lAddGens s pairs).gens =
        s.gens ++ (List.insertionSort genLe pairs).map Prod.snd ∧
      List.Sorted genLe (List.insertionSort genLe pairs) := by
  obtain ⟨h1, h2⟩ := addGenFold_spec (List.insertionSort genLe pairs) s
  exact ⟨h1, h2, List.sorted_insertionSort genLe pairs⟩

theorem dLookup_mem : ∀ (ps : List (Nat × Nat)) (k v : Nat),
    dLookup ps k = some v → (k, v) ∈ ps := by
  intro ps
  induction ps with
  | nil => intro k v h; simp [dLookup] at h
  | cons p t ih =>
    intro k v h
    unfold dLookup at h
    cases ht : dLookup t k <;> rw [ht] at h
    · by_cases hp : p.1 = k
      · rw [if_pos hp] at h
        have hv : p.2 = v := Option.some.inj h
        have hkv : (k, v) = p := by
          rw [← hp, ← hv]
        rw [hkv]
        exact List.mem_cons_self p t
      · rw [if_neg hp] at h
        exact absurd h (by simp)
    · have hv := Option.some.inj h
      exact List.mem_cons_of_mem p (hv ▸ ih k _ ht)

theorem dLookup_eq_none_iff : ∀ (ps : List (Nat × Nat)) (k : Nat),
    dLookup ps k = none ↔ k ∉ ps.map Prod.fst := by
  intro ps
  induction ps with
  | nil => intro k; simp [dLookup]
  | cons p t ih =>
    intro k
    unfold dLookup
    cases ht : dLookup t k
    · have hnm := (ih k).mp ht
      by_cases hp : p.1 = k
      · rw [if_pos hp]
        simp [hp]
      · rw [if_neg hp]
        constructor
        · intro _ hm
          rw [List.map_cons] at hm
          rcases List.mem_cons.mp hm with h1 | h2
          · exact hp h1.symm
          · exact hnm h2
        · intro _
          rfl
    · have hm : k ∈ t.map Prod.fst := by
        have := dLookup_mem t k _ ht
        exact List.mem_map_of_mem Prod.fst this
      simp [hm]

theorem dLookup_of_mem_nodup : ∀ (ps : List (Nat × Nat)) (k v : Nat),
    (ps.map Prod.fst).Nodup → (k, v) ∈ ps → dLookup ps k = some v := by
  intro ps
  induction ps with
  | nil => intro k v _ h; cases h
  | cons p t ih =>
    intro k v hnd hm
    have hnd1 : p.1 ∉ t.map Prod.fst := (List.nodup_cons.mp hnd).1
    have hnd2 : (t.map Prod.fst).Nodup := (List.nodup_cons.mp hnd).2
    unfold dLookup
    cases hm with
    | head =>
      have ht : dLookup t k = none := (dLookup_eq_none_iff t k).mpr hnd1
      rw [ht, if_pos rfl]
    | tail _ hmt =>
      rw [ih k v hnd2 hmt]

theorem pair_mem_zip : ∀ (A B : List Nat) (k v : Nat),
    (k, v) ∈ A.zip B → k ∈ A ∧ v ∈ B := by
  intro A
  induction A with
  | nil => intro B k v h; simp [List.zip] at h
  | cons a t ih =>
    intro B k v h
    cases B with
    | nil => simp [List.zip] at h
    | cons b tb =>
      rw [List.zip_cons_cons] at h
      cases h with
      | head =>
        exact ⟨List.mem_cons_self .., List.mem_cons_self ..⟩
      | tail _ hmt =>
        obtain ⟨h1, h2⟩ := ih tb k v hmt
        exact ⟨List.mem_cons_of_mem _ h1, List.mem_cons_of_mem _ h2⟩

theorem erasePair_of_not_mem : ∀ (ps : List (Nat × Nat)) (k : Nat),
    k ∉ ps.map Prod.fst → erasePair ps k = ps := by
  intro ps
  induction ps with
  | nil => intro k _; rfl
  | cons p t ih =>
    intro k h
    have hp : ¬(p.1 = k) := fun he => h (by simp [he])
    simp only [erasePair, if_neg hp]
    rw [ih k (fun hm => h (by simp [hm]))]

theorem erasePair_sublist : ∀ (ps : List (Nat × Nat)) (k : Nat),
    (erasePair ps k).Sublist ps := by
  intro ps
  induction ps with
  | nil => intro k; exact List.Sublist.refl []
  | cons p t ih =>
    intro k
    by_cases hp : p.1 = k
    · simp only [erasePair, if_pos hp]
      exact List.sublist_cons_self p t
    · simp only [erasePair, if_neg hp]
      exact List.Sublist.cons₂ p (ih k)

theorem eraseL_mem_length : ∀ (l : List Nat) (a : Nat),
    a ∈ l → (eraseL l a).length + 1 = l.length := by
  intro l
  induction l with
  | nil => intro a h; cases h
  | cons x t ih =>
    intro a h
    by_cases hx : x = a
    · simp [eraseL, hx]
    · have ht : a ∈ t := by
        cases h with
        | head => exact absurd rfl hx
        | tail _ hm => exact hm
      simp only [eraseL, if_neg hx, List.length_cons]
      rw [← ih a ht]

theorem eraseG_mem_length {α : Type} : ∀ (gs : List (Nat × List α)) (i : Nat),
    i ∈ gs.map Prod.fst → (eraseG gs i).length + 1 = gs.length := by
  intro gs
  induction gs with
  | nil => intro i h; cases h
  | cons g t ih =>
    intro i h
    by_cases hg : g.1 = i
    · simp [eraseG, hg]
    · have ht : i ∈ t.map Prod.fst := by
        rw [List.map_cons] at h
        cases h with
        | head => exact absurd rfl hg
        | tail _ hm => exact hm
      simp only [eraseG, if_neg hg, List.length_cons]
      rw [← ih i ht]

theorem eraseL_sublist : ∀ (l : List Nat) (a : Nat), (eraseL l a).Sublist l := by
  intro l
  induction l with
  | nil => intro a; exact List.Sublist.refl []
  | cons x t ih =>
    intro a
    by_cases hx : x = a
    · simp only [eraseL, if_pos hx]
      exact List.sublist_cons_self x t
    · simp only [eraseL, if_neg hx]
      exact List.Sublist.cons₂ x (ih a)

theorem eraseG_map_fst_sublist {α : Type} : ∀ (gs : List (Nat × List α))
    (i : Nat), ((eraseG gs i).map Prod.fst).Sublist (gs.map Prod.fst) := by
  intro gs
  induction gs with
  | nil => intro i; exact List.Sublist.refl []
  | cons g t ih =>
    intro i
    by_cases hg : g.1 = i
    · simp only [eraseG, if_pos hg, List.map_cons]
      exact List.sublist_cons_self g.1 (t.map Prod.fst)
    · simp only [eraseG, if_neg hg, List.map_cons]
      exact List.Sublist.cons₂ g.1 (ih i)

theorem zip_append_singleton : ∀ (A B : List Nat) (a b : Nat),
    A.length = B.length →
    (A ++ [a]).zip (B ++ [b]) = A.zip B ++ [(a, b)] := by
  intro A
  induction A with
  | nil =>
    intro B a b h
    cases B with
    | nil => rfl
    | cons _ _ => simp at h
  | cons x t ih =>
    intro B a b h
    cases B with
    | nil => simp at h
    | cons y tb =>
      simp only [List.cons_append, List.zip_cons_cons]
      rw [ih tb a b (by simpa using h)]

theorem zip_erase {α : Type} :
    ∀ (gs : List (Nat × List α)) (ls : List Nat) (i lab : Nat),
      gs.length = ls.length →
      ((gs.map Prod.fst).Nodup) → ls.Nodup →
      dLookup ((gs.map Prod.fst).zip ls) i = some lab →
      ((eraseG gs i).map Prod.fst).zip (eraseL ls lab) =
        erasePair ((gs.map Prod.fst).zip ls) i := by
  intro gs
  induction gs with
  | nil => intro ls i lab _ _ _ hd; simp [dLookup] at hd
  | cons g gt ih =>
    intro ls i lab hlen hgnd hlnd hd
    cases ls with
    | nil => simp at hlen
    | cons l lt =>
      have hlen' : gt.length = lt.length := by simpa using hlen
      rw [List.map_cons] at hgnd
      have hg1 : g.1 ∉ gt.map Prod.fst := (List.nodup_cons.mp hgnd).1
      have hgnd' : (gt.map Prod.fst).Nodup := (List.nodup_cons.mp hgnd).2
      have hl1 : l ∉ lt := (List.nodup_cons.mp hlnd).1
      have hlnd' : lt.Nodup := (List.nodup_cons.mp hlnd).2
      rw [List.map_cons, List.zip_cons_cons] at hd ⊢
      unfold dLookup at hd
      cases ht : dLookup ((gt.map Prod.fst).zip lt) i <;> rw [ht] at hd
      case none =>
        by_cases hgi : g.1 = i
        · rw [if_pos hgi] at hd
          have hleq : l = lab := Option.some.inj hd
          subst hgi
          subst hleq
          simp [eraseG, eraseL, erasePair]
        · rw [if_neg hgi] at hd
          exact absurd hd (by simp)
      case some lab2 =>
        have hlab : lab = lab2 := (Option.some.inj hd).symm
        subst hlab
        have hmem := dLookup_mem _ _ _ ht
        obtain ⟨hi_mem, hlab_mem⟩ := pair_mem_zip _ _ _ _ hmem
        have hgi : ¬(g.1 = i) := fun he => hg1 (he ▸ hi_mem)
        have hll : ¬(l = lab) := fun he => hl1 (he ▸ hlab_mem)
        simp only [eraseG, if_neg hgi, eraseL, if_neg hll, erasePair,
          if_neg hgi, List.map_cons, List.zip_cons_cons]
        rw [ih lt i lab hlen' hgnd' hlnd' ht]

theorem lApply_add_spec {α : Type} (s : LSelObj α) (i : Nat) (vs : List α)
    (lab : Nat) (hlen : s.gens.length = s.labels.length) :
    (lApply s (.addL i vs lab)).gens.length =
        (lApply s (.addL i vs lab)).labels.length ∧
      (lApply s (.addL i vs lab)).gens.map Prod.fst =
        s.gens.map Prod.fst ++ [i] ∧
      (lApply s (.addL i vs lab)).labels = s.labels ++ [lab] ∧
      gensDict (lApply s (.addL i vs lab)) = gensDict s ++ [(i, lab)] := by
  refine ⟨by simp [lApply, lAddGen, hlen], by simp [lApply, lAddGen],
    by simp [lApply, lAddGen], ?_⟩
  simp only [lApply, lAddGen, gensDict, List.map_append, List.map_cons,
    List.map_nil]
  exact zip_append_singleton _ _ i lab (by simpa using hlen)

theorem lApply_rm_spec {α : Type} (s : LSelObj α) (i : Nat)
    (hlen : s.gens.length = s.labels.length)
    (hg : (s.gens.map Prod.fst).Nodup) (hl : s.labels.Nodup) :
    (lApply s (.rmL i)).gens.length = (lApply s (.rmL i)).labels.length ∧
      ((lApply s (.rmL i)).gens.map Prod.fst).Sublist (s.gens.map Prod.fst) ∧
      ((lApply s (.rmL i)).labels).Sublist s.labels ∧
      gensDict (lApply s (.rmL i)) = erasePair (gensDict s) i := by
  cases hd : dLookup (gensDict s) i
  case none =>
    have hnone : lApply s (.rmL i) = s := by
      simp [lApply, lRemoveGen, hd]
    rw [hnone]
    refine ⟨hlen, List.Sublist.refl _, List.Sublist.refl _, ?_⟩
    exact (erasePair_of_not_mem _ _ ((dLookup_eq_none_iff _ _).mp hd)).symm
  case some lab =>
    have hsome : lApply s (.rmL i) =
        ⟨eraseG s.gens i, eraseL s.labels lab,
          some ((eraseG s.gens i).map Prod.fst,
            if (eraseG s.gens i).isEmpty then 0 else 1),
          match eraseG s.gens i with
          | [] => s.curr
          | g :: _ => some g.1⟩ := by
      simp [lApply, lRemoveGen, hd]
    rw [hsome]
    have hmem := dLookup_mem _ _ _ hd
    obtain ⟨hi_mem, hlab_mem⟩ := pair_mem_zip _ _ _ _ hmem
    have hglen := eraseG_mem_length s.gens i hi_mem
    have hllen := eraseL_mem_length s.labels lab hlab_mem
    refine ⟨?_, ?_, ?_, ?_⟩
    · show (eraseG s.gens i).length = (eraseL s.labels lab).length
      omega
    · show ((eraseG s.gens i).map Prod.fst).Sublist (s.gens.map Prod.fst)
      exact eraseG_map_fst_sublist s.gens i
    · show (eraseL s.labels lab).Sublist s.labels
      exact eraseL_sublist s.labels lab
    · show ((eraseG s.gens i).map Prod.fst).zip (eraseL s.labels lab) =
        erasePair (gensDict s) i
      exact zip_erase s.gens s.labels i lab hlen hg hl hd

theorem lFold_invariant {α : Type} :
    ∀ (ops : List (LOp α)) (s : LSelObj α),
      s.gens.length = s.labels.length →
      ((s.gens.map Prod.fst) ++ addIds ops).Nodup →
      (s.labels ++ addLabs ops).Nodup →
      (ops.foldl lApply s).gens.length = (ops.foldl lApply s).labels.length ∧
        ((ops.foldl lApply s).gens.map Prod.fst).Nodup ∧
        (ops.foldl lApply s).labels.Nodup ∧
        gensDict (ops.foldl lApply s) = ops.foldl specPairsStep (gensDict s) := by
  intro ops
  induction ops with
  | nil =>
    intro s hlen hg hl
    simp only [addIds, addLabs, List.filterMap_nil, List.append_nil] at hg hl
    exact ⟨hlen, hg, hl, rfl⟩
  | cons op t ih =>
    intro s hlen hg hl
    cases op with
    | addL i vs lab =>
      obtain ⟨hlen', hids, hlabs, hdict⟩ := lApply_add_spec s i vs lab hlen
      have hg' : ((lApply s (.addL i vs lab)).gens.map Prod.fst ++
          addIds t).Nodup := by
        rw [hids]
        have hre : s.gens.map Prod.fst ++ [i] ++ addIds t =
            s.gens.map Prod.fst ++ (i :: addIds t) := by simp
        rw [hre]
        simpa [addIds, List.filterMap_cons] using hg
      have hl' : ((lApply s (.addL i vs lab)).labels ++ addLabs t).Nodup := by
        rw [hlabs]
        have hre : s.labels ++ [lab] ++ addLabs t =
            s.labels ++ (lab :: addLabs t) := by simp
        rw [hre]
        simpa [addLabs, List.filterMap_cons] using hl
      obtain ⟨c1, c2, c3, c4⟩ := ih (lApply s (.addL i vs lab)) hlen' hg' hl'
      refine ⟨by simpa [List.foldl_cons] using c1,
        by simpa [List.foldl_cons] using c2,
        by simpa [List.foldl_cons] using c3, ?_⟩
      rw [List.foldl_cons, List.foldl_cons, c4, hdict]
      rfl
    | rmL i =>
      have hgs : (s.gens.map Prod.fst).Nodup := (List.nodup_append.mp hg).1
      have hls : s.labels.Nodup := (List.nodup_append.mp hl).1
      obtain ⟨hlen', hsubg, hsubl, hdict⟩ := lApply_rm_spec s i hlen hgs hls
      have hg' : ((lApply s (.rmL i)).gens.map Prod.fst ++ addIds t).Nodup := by
        have hsub2 : ((lApply s (.rmL i)).gens.map Prod.fst ++
            addIds t).Sublist (s.gens.map Prod.fst ++ addIds t) :=
          List.Sublist.append hsubg (List.Sublist.refl _)
        have hgt : (s.gens.map Prod.fst ++ addIds t).Nodup := by
          simpa [addIds, List.filterMap_cons] using hg
        exact List.Nodup.sublist hsub2 hgt
      have hl' : ((lApply s (.rmL i)).labels ++ addLabs t).Nodup := by
        have hsub2 : ((lApply s (.rmL i)).labels ++ addLabs t).Sublist
            (s.labels ++ addLabs t) :=
          List.Sublist.append hsubl (List.Sublist.refl _)
        have hlt : (s.labels ++ addLabs t).Nodup := by
          simpa [addLabs, List.filterMap_cons] using hl
        exact List.Nodup.sublist hsub2 hlt
      obtain ⟨c1, c2, c3, c4⟩ := ih (lApply s (.rmL i)) hlen' hg' hl'
      refine ⟨by simpa [List.foldl_cons] using c1,
        by simpa [List.foldl_cons] using c2,
        by simpa [List.foldl_cons] using c3, ?_⟩
      rw [List.foldl_cons, List.foldl_cons, c4, hdict]
      rfl

theorem lApply_len {α : Type} (s : LSelObj α) (op : LOp α)
    (hlen : s.gens.length = s.labels.length) :
    (lApply s op).gens.length = (lApply s op).labels.length := by
  cases op with
  | addL i vs lab => simp [lApply, lAddGen, hlen]
  | rmL i =>
    cases hd : dLookup (gensDict s) i
    case none =>
      have hnone : lApply s (.rmL i) = s := by
        simp [lApply, lRemoveGen, hd]
      rw [hnone]
      exact hlen
    case some lab =>
      have hsome : lApply s (.rmL i) =
          ⟨eraseG s.gens i, eraseL s.labels lab,
            some ((eraseG s.gens i).map Prod.fst,
              if (eraseG s.gens i).isEmpty then 0 else 1),
            match eraseG s.gens i with
            | [] => s.curr
            | g :: _ => some g.1⟩ := by
        simp [lApply, lRemoveGen, hd]
      rw [hsome]
      have hmem := dLookup_mem _ _ _ hd
      obtain ⟨hi_mem, hlab_mem⟩ := pair_mem_zip _ _ _ _ hmem
      have hglen := eraseG_mem_length s.gens i hi_mem
      have hllen := eraseL_mem_length s.labels lab hlab_mem
      show (eraseG s.gens i).length = (eraseL s.labels lab).length
      omega

theorem lFold_len {α : Type} :
    ∀ (ops : List (LOp α)) (s : LSelObj α),
      s.gens.length = s.labels.length →
      (ops.foldl lApply s).gens.length = (ops.foldl lApply s).labels.length := by
  intro ops
  induction ops with
  | nil => intro s hlen; exact hlen
  | cons op t ih =>
    intro s hlen
    rw [List.foldl_cons]
    exact ih (lApply s op) (lApply_len s op hlen)

theorem specPairsFold_mem {α : Type} :
    ∀ (ops : List (LOp α)) (q : List (Nat × Nat)) (i lab : Nat),
      (i, lab) ∈ ops.foldl specPairsStep q →
      (i, lab) ∈ q ∨ ∃ vs, LOp.addL i vs lab ∈ ops := by
  intro ops
  induction ops with
  | nil => intro q i lab h; exact Or.inl (by simpa using h)
  | cons op t ih =>
    intro q i lab h
    rw [List.foldl_cons] at h
    rcases ih (specPairsStep q op) i lab h with hq | ⟨vs, hvs⟩
    · cases op with
      | addL j ws labj =>
        simp only [specPairsStep] at hq
        rcases List.mem_append.mp hq with h1 | h2
        · exact Or.inl h1
        · have hpair : (i, lab) = (j, labj) := by simpa using h2
          have hi : i = j := congrArg Prod.fst hpair
          have hlabE : lab = labj := congrArg Prod.snd hpair
          refine Or.inr ⟨ws, ?_⟩
          rw [hi, hlabE]
          exact List.mem_cons_self _ _
      | rmL j =>
        simp only [specPairsStep] at hq
        exact Or.inl ((erasePair_sublist q j).subset hq)
    · exact Or.inr ⟨vs, List.mem_cons_of_mem _ hvs⟩

/-- C4 amended: `len(labels) == len(gens)` holds after every sequence of
add/remove operations unconditionally; and *provided all added sources are
distinct objects and all supplied labels are pairwise distinct*, the aligned
`(source, label)` pairs evolve exactly as specified (`specPairsFold`), so
looking up the label of any source still in the set yields exactly the label
supplied when it was added.  (Without distinct labels the lookup part fails:
`remove_gen` erases the first occurrence of an equal label, which can belong
to a different source — see the counterexample.) -/
theorem label_alignment_amended {α : Type} :
    (∀ ops : List (LOp α),
      (lFold ops).labels.length = (lFold ops).gens.length) ∧
      (∀ ops : List (LOp α), OkOps ops →
        gensDict (lFold ops) = specPairsFold ops ∧
          ∀ i lab, (i, lab) ∈ gensDict (lFold ops) →
            (∃ vs, LOp.addL i vs lab ∈ ops) ∧
              dLookup (gensDict (lFold ops)) i = some lab) := by
  constructor
  · intro ops
    exact (lFold_len ops mkLSel rfl).symm
  · intro ops hok
    have hg0 : (((mkLSel : LSelObj α)).gens.map Prod.fst ++
        addIds ops).Nodup := by
      simpa [mkLSel] using hok.1
    have hl0 : ((mkLSel : LSelObj α)).labels ++ addLabs ops |>.Nodup := by
      simpa [mkLSel] using hok.2
    obtain ⟨c1, c2, c3, c4⟩ := lFold_invariant ops mkLSel rfl hg0 hl0
    have hdict : gensDict (lFold ops) = specPairsFold ops := by
      simp only [lFold, specPairsFold]
      rw [c4]
      rfl
    refine ⟨hdict, ?_⟩
    intro i lab hmem
    constructor
    · rcases specPairsFold_mem ops [] i lab
        (by rw [hdict] at hmem; exact hmem) with hq | hadd
      · cases hq
      · exact hadd
    · have hle : ((lFold ops).gens.map Prod.fst).length ≤
          (lFold ops).labels.length := by
        simp only [List.length_map]
        have := lFold_len ops (mkLSel : LSelObj α) rfl
        simp only [lFold] at *
        omega
      have hkeys : (gensDict (lFold ops)).map Prod.fst =
          (lFold ops).gens.map Prod.fst :=
        List.map_fst_zip _ _ hle
      apply dLookup_of_mem_nodup
      · rw [hkeys]
        simpa [lFold] using c2
      · exact hmem

/-- C4 counterexample: sources `1, 2, 3` are added with labels `10, 20, 10`
(labels not distinct), then source `3` is removed.  `remove_gen` erases the
*first* occurrence of the label value `10` — which belonged to source `1` —
so afterwards looking up source `1` in the source-to-label mapping yields
`20`, not the label `10` supplied when source `1` was added (and source 2
yields `10`, not `20`).  The length invariant still holds, the lookup part
of the claim fails. -/
theorem label_alignment_cex :
    (lFold ([.addL 1 [] 10, .addL 2 [] 20, .addL 3 [] 10, .rmL 3] :
        List (LOp Nat))).labels.length =
      (lFold ([.addL 1 [] 10, .addL 2 [] 20, .addL 3 [] 10, .rmL 3] :
        List (LOp Nat))).gens.length ∧
      (lFold ([.addL 1 [] 10, .addL 2 [] 20, .addL 3 [] 10, .rmL 3] :
        List (LOp Nat))).gens.map Prod.fst = [1, 2] ∧
      dLookup (gensDict (lFold ([.addL 1 [] 10, .addL 2 [] 20, .addL 3 [] 10,
        .rmL 3] : List (LOp Nat)))) 1 = some 20 := by
  decide

theorem label_alignment_amended_witness :
    ((lFold ([.addL 1 [] 10, .addL 2 [] 20, .rmL 1] :
        List (LOp Nat))).labels.length =
      (lFold ([.addL 1 [] 10, .addL 2 [] 20, .rmL 1] :
        List (LOp Nat))).gens.length) ∧
      OkOps ([.addL 1 [] 10, .addL 2 [] 20, .rmL 1] : List (LOp Nat)) ∧
      (gensDict (lFold ([.addL 1 [] 10, .addL 2 [] 20, .rmL 1] :
          List (LOp Nat))) =
        specPairsFold ([.addL 1 [] 10, .addL 2 [] 20, .rmL 1] :
          List (LOp Nat)) ∧
        ∀ i lab, (i, lab) ∈ gensDict (lFold ([.addL 1 [] 10, .addL 2 [] 20,
            .rmL 1] : List (LOp Nat))) →
          (∃ vs, LOp.addL i vs lab ∈ ([.addL 1 [] 10, .addL 2 [] 20,
            .rmL 1] : List (LOp Nat))) ∧
            dLookup (gensDict (lFold ([.addL 1 [] 10, .addL 2 [] 20,
              .rmL 1] : List (LOp Nat)))) i = some lab) :=
  ⟨label_alignment_amended.1 _, by decide,
    label_alignment_amended.2 _ (by decide)⟩
